import Mathlib

/-!
# Verification of the Bill-of-Materials Expansion & Costing Engine

A shallow embedding, in Lean 4, of the core of `assets/app.js` from the
EVE Booster & Gas Calculator: the recipe expansion engine
(`expandToRawTotals` and its helpers), the cached data client
(`fetchJson`), the rate-limited gateway (`adamFetchJson`), the name
resolver (`resolveTypeIDsByName`), the market price accessor
(`getAggPrice`) and raw-material costing (`renderRawMaterials`), the
7-day trend statistics, and the calculator's derived figures
(`runCalculator`).

JavaScript numbers are modelled as `Nat`/`Int` where the program only
ever holds integral values (quantities, run counts, timestamps) and as
`ℚ` for prices and costs.  JavaScript `null`/`undefined` results of
`toNumber(v, null)` are modelled as `Option`.  Asynchronous fetches are
modelled as explicit oracle arguments (a catalog function, a response
value, a lookup service), justified by the fact that every fetch in one
expansion run is cached, so one run observes a single consistent value
per URL.  `Map` objects are modelled as insertion-ordered association
lists with JavaScript `Map.set` semantics.
-/

namespace Boost

/-! ## Insertion-ordered association maps (JavaScript `Map` semantics) -/
/-- Lookup in an association list (first match wins, as in a JS `Map`). -/
def alookup {κ β : Type} [DecidableEq κ] : List (κ × β) → κ → Option β
  | [], _ => none
  | (k2, v) :: t, k => if k2 = k then some v else alookup t k

/-- Models `Map.set`: update an existing key in place, otherwise append. -/
def mapSet {κ β : Type} [DecidableEq κ] : List (κ × β) → κ → β → List (κ × β)
  | [], k, v => [(k, v)]
  | (k2, v2) :: t, k, v =>
    if k2 = k then (k2, v) :: t else (k2, v2) :: mapSet t k v

/-! ## Expansion engine data model

Mirrors the shape of the Fuzzworks blueprint documents as the program
reads them.  `toNumber(x, null)` is modelled by `Option` fields;
`toNumber(m.quantity, 0)` and `toNumber(productQuantity, 1)` apply their
defaults at the use site, exactly as the source does. -/
/-- One input line of a blueprint activity (`m` in the source loop). -/
structure Material where
  typeid : Option Nat
  name : Option String
  quantity : Nat
deriving DecidableEq, Repr

/-- Models `bp.blueprintDetails`. -/
structure BlueprintDetails where
  productQuantity : Option Nat
  productTypeName : Option String
deriving DecidableEq, Repr

/-- A blueprint document: `activityMaterials` is keyed by activity-type
code (a string such as "1" for manufacturing or "11" for reactions);
a key that is present with an empty line list is still present, matching
JavaScript truthiness of an empty array. -/
structure Blueprint where
  blueprintDetails : Option BlueprintDetails
  activityMaterials : Option (List (String × List Material))
deriving DecidableEq, Repr

/-- The blueprint-fetch oracle: `fuzzBlueprint` as one expansion run
observes it (deterministic because of the 24h cache); `none` means the
fetch failed.  The argument is `Option Nat` because the source can pass
a non-finite `mid` through. -/
def Catalog : Type := Option Nat → Option Blueprint

/-- Models `pickBlueprintActivity`: prefer manufacturing ("1"), else reactions
("11"), else the first key, else none. -/
def pickBlueprintActivity (bp : Blueprint) : Option String :=
  match bp.activityMaterials with
  | none => none
  | some mats =>
    if (alookup mats "1").isSome then some "1"
    else if (alookup mats "11").isSome then some "11"
    else
      match mats with
      | [] => none
      | (k, _) :: _ => some k

/-- Models `bp.activityMaterials[act] || []`. -/
def matsFor (bp : Blueprint) (act : String) : List Material :=
  match bp.activityMaterials with
  | none => []
  | some mats => (alookup mats act).getD []

/-- Models `toNumber(bp?.blueprintDetails?.productQuantity, 1)`. -/
def bpOut (bp : Blueprint) : Nat :=
  match bp.blueprintDetails with
  | none => 1
  | some d => d.productQuantity.getD 1

/-- Models `bp?.blueprintDetails?.productTypeName || Type tid`. -/
def bpName (bp : Blueprint) (tid : Nat) : String :=
  match bp.blueprintDetails with
  | none => "Type " ++ toString tid
  | some d =>
    match d.productTypeName with
    | some n => if n = "" then "Type " ++ toString tid else n
    | none => "Type " ++ toString tid

/-- Decidable substring test over the character lists of the strings. -/
def startsWithSeq : List Char → List Char → Bool
  | _, [] => true
  | [], _ :: _ => false
  | a :: as, b :: bs => a = b && startsWithSeq as bs

/-- Models `haystack.includes(needle)` on character lists. -/
def containsSeq : List Char → List Char → Bool
  | [], need => need.isEmpty
  | a :: rest, need => startsWithSeq (a :: rest) need || containsSeq rest need

/-- Models `s.includes(sub)` for strings. -/
def strContains (s sub : String) : Bool :=
  containsSeq s.data sub.data

/-- Models `s.toLowerCase()`: lower-case every character. -/
def strToLower (s : String) : String := ⟨s.data.map Char.toLower⟩

/-- Models `shouldExpandMaterial(name, depth, maxDepth)`: expand only while
`depth < maxDepth` and the lower-cased name mentions a booster or a
fuel block. -/
def shouldExpandMaterial (name : String) (depth maxDepth : Nat) : Bool :=
  if maxDepth ≤ depth then false
  else
    let n := strToLower name
    if strContains n "booster" then true
    else if strContains n "fuel block" then true
    else false

/-- One aggregated totals entry (`{name, qty}` in the source map). -/
structure Entry where
  name : String
  qty : Nat
deriving DecidableEq, Repr

/-- One element of the final flat list (`{typeId, name, qty}`). -/
structure RawTotal where
  typeId : Option Nat
  name : String
  qty : Nat
deriving DecidableEq, Repr

/-- The walk state: the `totals` map (keyed by the material id, which
can be the JavaScript `null`) and the `(Identifier, depth)` visited
set. -/
structure ExpState where
  totals : List (Option Nat × Entry)
  visited : List (Nat × Nat)
deriving DecidableEq, Repr

/-- Models `addQty(existing, add)`. -/
def addQty (existing : Option Entry) (add : Entry) : Entry :=
  match existing with
  | none => add
  | some e => { name := if e.name = "" then add.name else e.name, qty := e.qty + add.qty }

/-- Models `totals.set(key, addQty(totals.get(key), {name, qty}))`. -/
def setTotal (m : List (Option Nat × Entry)) (k : Option Nat)
    (name : String) (qty : Nat) : List (Option Nat × Entry) :=
  mapSet m k (addQty (alookup m k) ⟨name, qty⟩)

/-- The aggregated quantity stored for a key (0 when absent). -/
def qtyAt (m : List (Option Nat × Entry)) (k : Option Nat) : Nat :=
  match alookup m k with
  | some e => e.qty
  | none => 0

/-- Models `Math.ceil(a / b)` for natural `a` and positive natural `b`. -/
def ceilDiv (a b : Nat) : Nat := (a + b - 1) / b

/-- Models `m.name || Type mid` (the id prints as `null` when non-finite,
as JavaScript template interpolation would). -/
def matName (m : Material) : String :=
  match m.name with
  | some n => if n = "" then "Type " ++ (match m.typeid with
      | some v => toString v
      | none => "null") else n
  | none => "Type " ++ (match m.typeid with
      | some v => toString v
      | none => "null")

/-- The body of the per-line `for (const m of mats)` loop, parametrised
by the recursive walk continuation `recur` so the walk itself can be
defined by structural recursion on fuel. -/
def lineStep (cat : Catalog) (maxDepth : Nat)
    (recur : Option Nat → Nat → Nat → ExpState → ExpState)
    (runCount depth : Nat) (s : ExpState) (m : Material) : ExpState :=
  let mid := m.typeid
  let mname := matName m
  let needed := m.quantity * runCount
  if shouldExpandMaterial mname depth maxDepth then
    match cat mid with
    | none => { s with totals := setTotal s.totals mid mname needed }
    | some childBp =>
      match pickBlueprintActivity childBp with
      | none => { s with totals := setTotal s.totals mid mname needed }
      | some _ =>
        let childOut := bpOut childBp
        let childRuns := ceilDiv needed (max childOut 1)
        recur mid childRuns (depth + 1) s
  else
    { s with totals := setTotal s.totals mid mname needed }

/-- The body of one `walk(tid, runCount, depth)` call, parametrised by
the recursive continuation. -/
def nodeStep (cat : Catalog) (maxDepth : Nat)
    (recur : Option Nat → Nat → Nat → ExpState → ExpState)
    (tid : Option Nat) (runCount depth : Nat) (s : ExpState) : ExpState :=
  match tid with
  | none => s
  | some t =>
    if (t, depth) ∈ s.visited then
      { s with totals := setTotal s.totals (some t) ("Type " ++ toString t) 0 }
    else
      let s1 : ExpState := { s with visited := (t, depth) :: s.visited }
      match cat (some t) with
      | none =>
        { s1 with totals := setTotal s1.totals (some t) ("Type " ++ toString t) 0 }
      | some bp =>
        match pickBlueprintActivity bp with
        | none =>
          { s1 with totals := setTotal s1.totals (some t) (bpName bp t) 0 }
        | some act =>
          let mats := matsFor bp act
          if mats.isEmpty then
            { s1 with totals := setTotal s1.totals (some t) (bpName bp t) 0 }
          else
            mats.foldl (lineStep cat maxDepth recur runCount depth) s1

/-- The recursive walk, with explicit fuel.  The fuel only bounds the
recursion depth; `walkGo_fuel_stable` below shows that any fuel of at
least `maxDepth + 1` (which `expandToRawTotals` supplies) yields the
same result, so the JavaScript recursion (which is bounded by
`depth < maxDepth` checks) is modelled exactly. -/
def walkGo (cat : Catalog) (maxDepth : Nat) :
    Nat → Option Nat → Nat → Nat → ExpState → ExpState
  | 0, _, _, _, s => s
  | fuel + 1, tid, runCount, depth, s =>
    nodeStep cat maxDepth (walkGo cat maxDepth fuel) tid runCount depth s

/-- Models `expandToRawTotals(typeId, runs, maxDepth)`: run the walk from the
root, then keep only entries with positive quantity. -/
def expandToRawTotals (cat : Catalog) (typeId : Option Nat)
    (runs maxDepth : Nat) : List RawTotal :=
  let s := walkGo cat maxDepth (maxDepth + 1) typeId runs 0 ⟨[], []⟩
  (s.totals.filter (fun kv => 0 < kv.2.qty)).map
    (fun kv => ⟨kv.1, kv.2.name, kv.2.qty⟩)

/-! ### Concrete catalogs used by witnesses and counterexamples -/
/-- A root blueprint (id 5) with three direct lines, two sharing id 7. -/
def bpRootC1 : Blueprint :=
  ⟨some ⟨some 1, some "Synth Widget"⟩,
   some [("1", [⟨some 7, some "Gas A", 3⟩,
                ⟨some 8, some "Gas B", 4⟩,
                ⟨some 7, some "Gas A", 5⟩])]⟩

/-- Catalog holding only `bpRootC1` at id 5. -/
def c1Cat : Catalog := fun t =>
  match t with
  | some 5 => some bpRootC1
  | _ => none

/-- Root blueprint (id 1) needing 10 units of item 2, whose name matches
the expansion predicate. -/
def bpWidgetCex : Blueprint :=
  ⟨some ⟨some 1, some "Widget"⟩,
   some [("1", [⟨some 2, some "Test Booster", 10⟩])]⟩

/-- Child blueprint (id 2) whose manufacturing key is present but holds
an empty input-line list (truthy in JavaScript, so it is selected). -/
def bpEmptyMats : Blueprint :=
  ⟨some ⟨some 1, some "Test Booster"⟩, some [("1", [])]⟩

/-- Catalog for the demand-swallowing counterexample. -/
def cexCat : Catalog := fun t =>
  match t with
  | some 1 => some bpWidgetCex
  | some 2 => some bpEmptyMats
  | _ => none

/-- A blueprint (id 1) whose single line references its own product. -/
def bpLoop : Blueprint :=
  ⟨some ⟨some 1, some "Loop Booster"⟩,
   some [("1", [⟨some 1, some "Loop Booster", 2⟩])]⟩

/-- Catalog for the self-referencing-recipe scenario. -/
def loopCat : Catalog := fun t =>
  match t with
  | some 1 => some bpLoop
  | _ => none

/-- Root blueprint (id 1) with two expandable lines naming the same
child id 2, so the second line revisits `(2, 1)` and trips the guard. -/
def bpRootG : Blueprint :=
  ⟨some ⟨some 1, some "Strong Widget"⟩,
   some [("1", [⟨some 2, some "Alpha Booster", 1⟩,
                ⟨some 2, some "Alpha Booster", 3⟩])]⟩

/-- Child blueprint (id 2) consuming 4 units of the leaf item 3. -/
def bpChildG : Blueprint :=
  ⟨some ⟨some 1, some "Alpha Booster"⟩,
   some [("1", [⟨some 3, some "Gas C", 4⟩])]⟩

/-- Catalog for the guard-trip scenario. -/
def guardCat : Catalog := fun t =>
  match t with
  | some 1 => some bpRootG
  | some 2 => some bpChildG
  | _ => none

/-- The quantity contributed to key `k` by the direct lines `mats` when
each line records `quantityPerRun × runs`. -/
def sumForKey (mats : List Material) (k : Option Nat) (runs : Nat) : Nat :=
  (mats.map (fun m => if m.typeid = k then m.quantity * runs else 0)).sum

/-! ## Cached Data Client (`fetchJson`) -/
/-- What the network returns for one GET: a non-success status, a body
that fails to parse as JSON, or a parsed payload. -/
inductive FetchResponse (α : Type) where
  | transportError (status : Nat)
  | parseError
  | payload (data : α)
deriving DecidableEq, Repr

/-- One `memCache` entry (`{ time, data }`). -/
structure CacheEntry (α : Type) where
  time : Int
  data : α
deriving DecidableEq, Repr

/-- The in-memory cache, keyed by `"json:" + url`. -/
def Cache (α : Type) : Type := List (String × CacheEntry α)

/-- The errors `fetchJson` can throw. -/
inductive FetchError where
  | httpStatus (status : Nat) (url : String)
  | parseFailed (url : String)
deriving DecidableEq, Repr

/-- Models `fetchJson(url, {ttlMs})` given the current cache, clock and the
network's response: returns the result and the updated cache.  A cache
hit younger than `ttlMs` (or any hit when `ttlMs ≤ 0`) is returned
without touching the network; the cache is written only after a
successful parse. -/
def fetchJson {α : Type} (cache : Cache α) (url : String) (ttlMs now : Int)
    (response : FetchResponse α) : Except FetchError α × Cache α :=
  let key := "json:" ++ url
  let fresh : Except FetchError α × Cache α :=
    match response with
    | .transportError st => (.error (.httpStatus st url), cache)
    | .parseError => (.error (.parseFailed url), cache)
    | .payload d => (.ok d, mapSet cache key ⟨now, d⟩)
  match alookup cache key with
  | some hit =>
    if ttlMs ≤ 0 ∨ now - hit.time < ttlMs then (.ok hit.data, cache)
    else fresh
  | none => fresh

/-! ## Rate-Limited Gateway (`adamFetchJson`)

The queue is a chain of continuations: each queued call starts when the
previous one settles, computes `wait = max(0, 5100 - (now - adamLastCallMs))`,
sleeps, performs the fetch, and — only if the fetch succeeded — sets
`adamLastCallMs` to the completion time. -/
/-- One queued call, abstracted to its observable timing behaviour. -/
structure AdamCall where
  latency : Nat
  ok : Bool
deriving DecidableEq, Repr

/-- The gateway state: `adamLastCallMs` and the time at which the next
queued continuation will start running. -/
structure AdamState where
  lastCallMs : Int
  now : Int
deriving DecidableEq, Repr

/-- Models `max(0, 5100 - (now - adamLastCallMs))`. -/
def adamWait (s : AdamState) : Int := max 0 (5100 - (s.now - s.lastCallMs))

/-- Issue and completion instants of one queued call. -/
structure AdamTiming where
  issue : Int
  finish : Int
deriving DecidableEq, Repr

/-- Process one queued call: sleep, fetch, and update `adamLastCallMs`
only when the fetch resolved successfully (on a rejection the assignment
is skipped). -/
def adamStep (s : AdamState) (c : AdamCall) : AdamState × AdamTiming :=
  let issue := s.now + adamWait s
  let fin := issue + (c.latency : Int)
  (⟨if c.ok then fin else s.lastCallMs, fin⟩, ⟨issue, fin⟩)

/-- Process a FIFO queue of calls, returning the final state and the
timing of every call in submission order. -/
def adamRun (s : AdamState) : List AdamCall → AdamState × List AdamTiming
  | [] => (s, [])
  | c :: rest =>
    let st := adamStep s c
    let r := adamRun st.1 rest
    (r.1, st.2 :: r.2)

/-- Completion instant of the last queued call (`d` when none ran). -/
def lastFinish (s : AdamState) (calls : List AdamCall) : Int :=
  ((adamRun s calls).2.getLastD ⟨s.now, s.now⟩).finish

/-! ## Name Resolver (`resolveTypeIDsByName`) -/
/-- One row of the typeid2 lookup response. -/
structure TypeRow where
  typeName : String
  typeID : Nat
deriving DecidableEq, Repr

/-- Models `chunk(arr, size)`. -/
def chunkList {α : Type} (size : Nat) : List α → List (List α)
  | [] => []
  | x :: xs =>
    if _h : size = 0 then [x :: xs]
    else (x :: xs).take size :: chunkList size ((x :: xs).drop size)
termination_by l => l.length
decreasing_by
  simp only [List.length_drop, List.length_cons]
  omega

/-- Models `!map[n]`: the entry is missing or falsy (a zero id). -/
def truthyLookup (m : List (String × Nat)) (n : String) : Bool :=
  match alookup m n with
  | some id => id ≠ 0
  | none => false

/-- Merge one response batch into the name index: rows with a truthy
`typeName` and `typeID` overwrite or extend the map. -/
def mergeRows (m : List (String × Nat)) (rows : List TypeRow) : List (String × Nat) :=
  rows.foldl
    (fun acc row =>
      if row.typeName ≠ "" ∧ row.typeID ≠ 0 then mapSet acc row.typeName row.typeID
      else acc)
    m

/-- Models `resolveTypeIDsByName(typeNames)` over the persisted index `map0`
and a lookup-service oracle; returns the final index and the number of
lookup requests issued. -/
def resolveTypeIDsByName (map0 : List (String × Nat)) (typeNames : List String)
    (lookupSvc : List String → List TypeRow) : List (String × Nat) × Nat :=
  let missing := typeNames.filter (fun n => ! truthyLookup map0 n)
  if missing.isEmpty then (map0, 0)
  else
    let parts := chunkList 20 missing
    (parts.foldl (fun m batch => mergeRows m (lookupSvc batch)) map0, parts.length)

/-! ## Market Aggregator (`getAggPrice`) and raw-material costing -/
/-- One side of an aggregate quote; every field may be absent or
non-numeric, which `toNumber(v, null)` turns into `null`. -/
structure SideAgg where
  minPrice : Option ℚ
  maxPrice : Option ℚ
  volume : Option ℚ
deriving DecidableEq, Repr

/-- One per-type aggregate record (`rec.sell` / `rec.buy`). -/
structure Quote where
  sell : Option SideAgg
  buy : Option SideAgg
deriving DecidableEq, Repr

/-- A station's aggregate document, keyed by type id. -/
def Agg : Type := List (Nat × Quote)

/-- Models `getAggPrice(aggForStation, typeId, mode)`: `null` when the station
document is absent, the record is absent, or the requested side's number
is absent. -/
def getAggPrice (agg : Option Agg) (typeId : Nat) (mode : String) : Option ℚ :=
  match agg with
  | none => none
  | some a =>
    match alookup a typeId with
    | none => none
    | some rec =>
      if mode = "buy_max" then rec.buy.bind SideAgg.maxPrice
      else rec.sell.bind SideAgg.minPrice

/-- One row of the expanded raw totals handed to the costing table. -/
structure RawLine where
  typeId : Nat
  name : String
  qty : ℚ
deriving DecidableEq, Repr

/-- The rows `renderRawMaterials` renders: the totals sorted by
descending quantity, each with its unit price and line cost (absent when
the price is unknown). -/
def renderRawRows (agg : Agg) (rawTotals : List RawLine) (mode : String) :
    List (RawLine × Option ℚ × Option ℚ) :=
  let rows := List.insertionSort (fun a b => b.qty ≤ a.qty) rawTotals
  rows.map (fun r =>
    let unit := getAggPrice (some agg) r.typeId mode
    (r, unit, unit.map (· * r.qty)))

/-- The return value of `renderRawMaterials` is only the total cost: the
sum of the line costs whose unit price is known. -/
def renderRawMaterials (agg : Agg) (rawTotals : List RawLine) (mode : String) : ℚ :=
  ((renderRawRows agg rawTotals mode).filterMap (fun x => x.2.2)).sum

/-- The number of rendered lines whose unit price is unknown (these
contribute nothing to the total). -/
def skippedCount (agg : Agg) (rawTotals : List RawLine) (mode : String) : Nat :=
  ((renderRawRows agg rawTotals mode).filter (fun x => x.2.1 = none)).length

/-- A one-entry station document: type 1 sells for 5, no buy side. -/
def aggC7 : Agg := [(1, ⟨some ⟨some 5, none, none⟩, none⟩)]

/-- Raw totals with every line priced. -/
def rawLinesA : List RawLine := [⟨1, "a", 2⟩]

/-- Raw totals with one priced line and one unknown-priced line giving
the same total cost as `rawLinesA`. -/
def rawLinesB : List RawLine := [⟨1, "a", 2⟩, ⟨99, "b", 7⟩]

/-! ## Trend Analyzer (7-day statistics) -/
/-- One price-history row: the date (as a sortable key) and
`toNumber(row.sell_price_avg, null)`. -/
structure HistRow where
  price_date : Nat
  sell_price_avg : Option ℚ
deriving DecidableEq, Repr

/-- Per-identifier trend statistics. -/
structure TrendStats where
  first : Option ℚ
  last : Option ℚ
  min : ℚ
  max : ℚ
  avg : ℚ
  pct : Option ℚ
deriving DecidableEq, Repr

/-- The stable ascending-by-date sort the source applies before taking
`first` and `last`. -/
def sortRows (rows : List HistRow) : List HistRow :=
  List.insertionSort (fun a b => a.price_date ≤ b.price_date) rows

/-- The valid price points: numeric and strictly positive. -/
def validPrices (rows : List HistRow) : List ℚ :=
  rows.filterMap (fun r =>
    match r.sell_price_avg with
    | some p => if 0 < p then some p else none
    | none => none)

/-- The per-identifier statistics block of `loadGasTrends7d` /
`loadBoosterStats7d`: sort by date, take the first and last rows, filter
the valid prices, and compute min / max / average over them and the
percent change from the first and last rows; nothing is stored when no
valid price exists. -/
def trendStats (rows : List HistRow) : Option TrendStats :=
  match sortRows rows with
  | [] => none
  | f :: rest =>
    let lastRow := (f :: rest).getLastD f
    let p0 := f.sell_price_avg
    let p1 := lastRow.sell_price_avg
    match validPrices (f :: rest) with
    | [] => none
    | q :: qs =>
      let mn := qs.foldl min q
      let mx := qs.foldl max q
      let avg := (q :: qs).sum / ((q :: qs).length : ℚ)
      let pct :=
        match p0, p1 with
        | some a, some b => if 0 < a then some ((b - a) / a * 100) else none
        | _, _ => none
      some ⟨p0, p1, mn, mx, avg, pct⟩

/-- The 7-day series of §8's concrete scenario, deliberately scrambled
to exercise the date sort. -/
def gasSeries : List HistRow :=
  [⟨3, some 80⟩, ⟨1, some 100⟩, ⟨2, some 90⟩, ⟨5, some 60⟩,
   ⟨4, some 70⟩, ⟨8, some 30⟩, ⟨6, some 50⟩, ⟨7, some 40⟩]

/-! ## Costing Calculator (`runCalculator` derived figures) -/
/-- Models `Math.max(1, Math.floor(toNumber(input, 1)))`. -/
def toRuns (v : Option ℚ) : Int := max 1 ⌊v.getD 1⌋

/-- The derived financial figures of `runCalculator`. -/
structure CalcFigures where
  allInCost : ℚ
  totalOutputUnits : ℚ
  estRevenue : Option ℚ
  estProfit : Option ℚ
  bpcPerRun : ℚ
  bpcPerUnit : ℚ
  costPerRun : ℚ
  costPerUnit : ℚ
deriving DecidableEq, Repr

/-- The arithmetic tail of `runCalculator`: given the summed material
cost, the manual BPC cost, the raw run-count input, the blueprint's
output-per-run, and the output unit price at the costing hub (absent
when unknown). -/
def calcFigures (materialCost bpcCost : ℚ) (runsInput : Option ℚ)
    (productQuantity : Option ℚ) (outUnitPrice : Option ℚ) : CalcFigures :=
  let totalRuns : Int := toRuns runsInput
  let outPerRun : ℚ := productQuantity.getD 1
  let totalOutputUnits : ℚ := (totalRuns : ℚ) * outPerRun
  let allIn := materialCost + bpcCost
  { allInCost := allIn
    totalOutputUnits := totalOutputUnits
    estRevenue := outUnitPrice.map (fun p => p * totalOutputUnits)
    estProfit := outUnitPrice.map (fun p => p * totalOutputUnits - allIn)
    bpcPerRun := bpcCost / (totalRuns : ℚ)
    bpcPerUnit := bpcCost / max totalOutputUnits 1
    costPerRun := allIn / (totalRuns : ℚ)
    costPerUnit := allIn / max totalOutputUnits 1 }

theorem alookup_mapSet_self {κ β : Type} [DecidableEq κ]
    (m : List (κ × β)) (k : κ) (v : β) :
    alookup (mapSet m k v) k = some v := by
  induction m with
  | nil => simp [mapSet, alookup]
  | cons h t ih =>
    obtain ⟨k2, v2⟩ := h
    by_cases hk : k2 = k
    · simp [mapSet, alookup, hk]
    · simp [mapSet, alookup, hk, ih]

theorem alookup_mapSet_ne {κ β : Type} [DecidableEq κ]
    (m : List (κ × β)) (k k2 : κ) (v : β) (h : k2 ≠ k) :
    alookup (mapSet m k v) k2 = alookup m k2 := by
  induction m with
  | nil => simp [mapSet, alookup, Ne.symm h]
  | cons hd t ih =>
    obtain ⟨k3, v3⟩ := hd
    by_cases hk : k3 = k
    · subst hk
      simp [mapSet, alookup, if_neg (Ne.symm h)]
    · simp only [mapSet, if_neg hk]
      by_cases hk2 : k3 = k2
      · simp [alookup, hk2]
      · simp [alookup, hk2, ih]

theorem alookup_isSome_iff_mem_keys {κ β : Type} [DecidableEq κ]
    (m : List (κ × β)) (k : κ) :
    (alookup m k).isSome ↔ k ∈ m.map Prod.fst := by
  induction m with
  | nil => simp [alookup]
  | cons hd t ih =>
    obtain ⟨k2, v2⟩ := hd
    by_cases hk : k2 = k
    · simp [alookup, hk]
    · simp [alookup, hk, ih, Ne.symm hk]

theorem alookup_isSome_mapSet {κ β : Type} [DecidableEq κ]
    (m : List (κ × β)) (k k2 : κ) (v : β) :
    (alookup (mapSet m k v) k2).isSome ↔ (alookup m k2).isSome ∨ k2 = k := by
  by_cases hk : k2 = k
  · subst hk
    simp [alookup_mapSet_self]
  · simp [alookup_mapSet_ne m k k2 v hk, hk]

theorem keys_mapSet {κ β : Type} [DecidableEq κ]
    (m : List (κ × β)) (k : κ) (v : β) :
    (mapSet m k v).map Prod.fst =
      if (alookup m k).isSome then m.map Prod.fst else m.map Prod.fst ++ [k] := by
  induction m with
  | nil => simp [mapSet, alookup]
  | cons hd t ih =>
    obtain ⟨k2, v2⟩ := hd
    by_cases hk : k2 = k
    · simp [mapSet, alookup, hk]
    · simp only [mapSet, if_neg hk, alookup, List.map_cons]
      rw [ih]
      by_cases hs : (alookup t k).isSome
      · simp [hs, hk]
      · simp [hs, hk]

theorem keysNodup_mapSet {κ β : Type} [DecidableEq κ]
    (m : List (κ × β)) (k : κ) (v : β)
    (h : (m.map Prod.fst).Nodup) : ((mapSet m k v).map Prod.fst).Nodup := by
  rw [keys_mapSet]
  by_cases hs : (alookup m k).isSome
  · simpa [hs] using h
  · have hnot : k ∉ m.map Prod.fst := fun hmem =>
      hs ((alookup_isSome_iff_mem_keys m k).mpr hmem)
    simp only [if_neg hs, List.nodup_append]
    exact ⟨h, List.nodup_singleton k, by simpa using hnot⟩

theorem alookup_eq_some_of_mem_nodup {κ β : Type} [DecidableEq κ]
    (m : List (κ × β)) (k : κ) (v : β)
    (hmem : (k, v) ∈ m) (hnd : (m.map Prod.fst).Nodup) :
    alookup m k = some v := by
  induction m with
  | nil => cases hmem
  | cons hd t ih =>
    obtain ⟨k2, v2⟩ := hd
    have hnd' : (k2 :: t.map Prod.fst).Nodup := by simpa using hnd
    have hnd2 := List.nodup_cons.mp hnd'
    rcases List.mem_cons.mp hmem with hh | ht
    · injection hh with h1 h2
      subst h1
      subst h2
      simp [alookup]
    · have hk : k2 ≠ k := by
        intro he
        subst he
        exact hnd2.1 (List.mem_map.mpr ⟨(k2, v), ht, rfl⟩)
      simp only [alookup, if_neg hk]
      exact ih ht hnd2.2

theorem mem_of_alookup_eq_some {κ β : Type} [DecidableEq κ]
    (m : List (κ × β)) (k : κ) (v : β) (h : alookup m k = some v) :
    (k, v) ∈ m := by
  induction m with
  | nil => simp [alookup] at h
  | cons hd t ih =>
    obtain ⟨k2, v2⟩ := hd
    by_cases hk : k2 = k
    · subst hk
      simp [alookup] at h
      simp [h]
    · simp only [alookup, if_neg hk] at h
      exact List.mem_cons_of_mem _ (ih h)

theorem depth_lt_of_shouldExpand {name : String} {depth maxDepth : Nat}
    (h : shouldExpandMaterial name depth maxDepth = true) : depth < maxDepth := by
  by_cases hd : maxDepth ≤ depth
  · simp [shouldExpandMaterial, hd] at h
  · exact Nat.lt_of_not_le hd

/-! ## Walk lemmas -/
theorem lineStep_congr (cat : Catalog) (maxDepth : Nat)
    (r1 r2 : Option Nat → Nat → Nat → ExpState → ExpState)
    (runCount depth : Nat)
    (h : ∀ mid cr s2, depth < maxDepth →
      r1 mid cr (depth + 1) s2 = r2 mid cr (depth + 1) s2) :
    ∀ s m, lineStep cat maxDepth r1 runCount depth s m =
      lineStep cat maxDepth r2 runCount depth s m := by
  intro s m
  by_cases hex : shouldExpandMaterial (matName m) depth maxDepth = true
  · have hlt := depth_lt_of_shouldExpand hex
    simp only [lineStep, hex, if_true]
    cases hc : cat m.typeid with
    | none => simp only [hc]
    | some childBp =>
      simp only [hc]
      cases hp : pickBlueprintActivity childBp with
      | none => simp only [hp]
      | some act =>
        simp only [hp]
        exact h _ _ _ hlt
  · simp only [lineStep, if_neg hex]

theorem nodeStep_congr (cat : Catalog) (maxDepth : Nat)
    (r1 r2 : Option Nat → Nat → Nat → ExpState → ExpState)
    (tid : Option Nat) (runCount depth : Nat) (s : ExpState)
    (h : ∀ mid cr s2, depth < maxDepth →
      r1 mid cr (depth + 1) s2 = r2 mid cr (depth + 1) s2) :
    nodeStep cat maxDepth r1 tid runCount depth s =
      nodeStep cat maxDepth r2 tid runCount depth s := by
  cases tid with
  | none => rfl
  | some t =>
    simp only [nodeStep]
    by_cases hv : (t, depth) ∈ s.visited
    · simp only [if_pos hv]
    · simp only [if_neg hv]
      cases hc : cat (some t) with
      | none => simp only [hc]
      | some bp =>
        simp only [hc]
        cases hp : pickBlueprintActivity bp with
        | none => simp only [hp]
        | some act =>
          simp only [hp]
          by_cases he : (matsFor bp act).isEmpty
          · simp only [if_pos he]
          · simp only [if_neg he]
            exact List.foldl_ext _ _ _
              (fun s2 m _ => lineStep_congr cat maxDepth r1 r2 runCount depth h s2 m)

theorem walkGo_succ (cat : Catalog) (maxDepth : Nat) :
    ∀ g tid runCount depth s, depth ≤ maxDepth → maxDepth ≤ depth + g →
      walkGo cat maxDepth (g + 2) tid runCount depth s =
        walkGo cat maxDepth (g + 1) tid runCount depth s := by
  intro g
  induction g with
  | zero =>
    intro tid runCount depth s hd hle
    exact nodeStep_congr cat maxDepth _ _ tid runCount depth s
      (fun mid cr s2 hlt => absurd hlt (by omega))
  | succ g ih =>
    intro tid runCount depth s hd hle
    exact nodeStep_congr cat maxDepth _ _ tid runCount depth s
      (fun mid cr s2 hlt => ih mid cr (depth + 1) s2 (by omega) (by omega))

theorem walkGo_fuel_stable (cat : Catalog) (maxDepth : Nat) :
    ∀ extra tid runCount s,
      walkGo cat maxDepth (maxDepth + 1 + extra) tid runCount 0 s =
        walkGo cat maxDepth (maxDepth + 1) tid runCount 0 s := by
  intro extra
  induction extra with
  | zero => intro tid runCount s; rfl
  | succ e ih =>
    intro tid runCount s
    have h1 : maxDepth + 1 + (e + 1) = (maxDepth + e) + 2 := by omega
    have h2 : (maxDepth + e) + 1 = maxDepth + 1 + e := by omega
    rw [h1, walkGo_succ cat maxDepth (maxDepth + e) tid runCount 0 s
      (Nat.zero_le _) (by omega), h2, ih]

theorem qtyAt_setTotal (m : List (Option Nat × Entry)) (k k2 : Option Nat)
    (name : String) (q : Nat) :
    qtyAt (setTotal m k name q) k2 = qtyAt m k2 + (if k2 = k then q else 0) := by
  by_cases hk : k2 = k
  · subst hk
    simp only [qtyAt, setTotal, alookup_mapSet_self, if_pos rfl]
    cases halo : alookup m k2 with
    | none => simp [addQty]
    | some e => simp [addQty]
  · simp only [qtyAt, setTotal, alookup_mapSet_ne _ _ _ _ hk, if_neg hk]
    cases alookup m k2 <;> simp

theorem isSome_setTotal (m : List (Option Nat × Entry)) (k k2 : Option Nat)
    (name : String) (q : Nat) :
    (alookup (setTotal m k name q) k2).isSome ↔
      (alookup m k2).isSome ∨ k2 = k :=
  alookup_isSome_mapSet m k k2 _

theorem keysNodup_setTotal (m : List (Option Nat × Entry)) (k : Option Nat)
    (name : String) (q : Nat) (h : (m.map Prod.fst).Nodup) :
    ((setTotal m k name q).map Prod.fst).Nodup :=
  keysNodup_mapSet m k _ h

theorem lineStep_leaf (cat : Catalog) (maxDepth : Nat)
    (recur : Option Nat → Nat → Nat → ExpState → ExpState)
    (runCount depth : Nat) (s : ExpState) (m : Material)
    (h : shouldExpandMaterial (matName m) depth maxDepth = false) :
    lineStep cat maxDepth recur runCount depth s m =
      { s with totals := setTotal s.totals m.typeid (matName m) (m.quantity * runCount) } := by
  simp [lineStep, h]

theorem shouldExpand_maxDepth_zero (name : String) (depth : Nat) :
    shouldExpandMaterial name depth 0 = false := by
  simp [shouldExpandMaterial]

theorem qtyAt_foldl_depth0 (cat : Catalog)
    (recur : Option Nat → Nat → Nat → ExpState → ExpState) (runCount : Nat) :
    ∀ (mats : List Material) (s : ExpState) (k : Option Nat),
      qtyAt ((mats.foldl (lineStep cat 0 recur runCount 0) s).totals) k =
        qtyAt s.totals k + sumForKey mats k runCount := by
  intro mats
  induction mats with
  | nil => intro s k; simp [sumForKey]
  | cons m rest ih =>
    intro s k
    rw [List.foldl_cons,
      lineStep_leaf cat 0 recur runCount 0 s m (shouldExpand_maxDepth_zero _ _), ih]
    simp only [qtyAt_setTotal, sumForKey, List.map_cons, List.sum_cons]
    by_cases hk : k = m.typeid
    · rw [if_pos hk, if_pos hk.symm]
      omega
    · rw [if_neg hk, if_neg (fun h => hk h.symm)]
      omega

theorem isSome_foldl_depth0 (cat : Catalog)
    (recur : Option Nat → Nat → Nat → ExpState → ExpState) (runCount : Nat) :
    ∀ (mats : List Material) (s : ExpState) (k : Option Nat),
      (alookup ((mats.foldl (lineStep cat 0 recur runCount 0) s).totals) k).isSome ↔
        ((alookup s.totals k).isSome ∨ ∃ m ∈ mats, m.typeid = k) := by
  intro mats
  induction mats with
  | nil => intro s k; simp
  | cons m rest ih =>
    intro s k
    rw [List.foldl_cons,
      lineStep_leaf cat 0 recur runCount 0 s m (shouldExpand_maxDepth_zero _ _), ih]
    simp only [isSome_setTotal]
    constructor
    · rintro (⟨h | h⟩ | ⟨m2, hm2, hk2⟩)
      · exact Or.inl h
      · exact Or.inr ⟨m, List.mem_cons_self m rest, h.symm⟩
      · exact Or.inr ⟨m2, List.mem_cons_of_mem m hm2, hk2⟩
    · rintro (h | ⟨m2, hm2, hk2⟩)
      · exact Or.inl (Or.inl h)
      · rcases List.mem_cons.mp hm2 with hh | ht
        · subst hh
          exact Or.inl (Or.inr hk2.symm)
        · exact Or.inr ⟨m2, ht, hk2⟩

theorem keysNodup_foldl_depth0 (cat : Catalog)
    (recur : Option Nat → Nat → Nat → ExpState → ExpState) (runCount : Nat) :
    ∀ (mats : List Material) (s : ExpState),
      ((s.totals.map Prod.fst).Nodup) →
        (((mats.foldl (lineStep cat 0 recur runCount 0) s).totals.map Prod.fst).Nodup) := by
  intro mats
  induction mats with
  | nil => intro s h; exact h
  | cons m rest ih =>
    intro s h
    rw [List.foldl_cons,
      lineStep_leaf cat 0 recur runCount 0 s m (shouldExpand_maxDepth_zero _ _)]
    exact ih _ (keysNodup_setTotal _ _ _ _ h)

/-- C1: with `maxDepth = 0` and a positive run count, `expandToRawTotals`
returns exactly one flat entry per direct input line of the chosen
activity — one entry per distinct input identifier, whose quantity is
the sum of `quantityPerRun × runs` over the lines bearing that
identifier (so duplicated identifiers are merged into one entry). -/
theorem C1_depth0_one_entry_per_line (cat : Catalog) (root runs : Nat)
    (bp : Blueprint) (act : String)
    (hbp : cat (some root) = some bp)
    (hact : pickBlueprintActivity bp = some act)
    (hmats : matsFor bp act ≠ [])
    (hq : ∀ m ∈ matsFor bp act, 0 < m.quantity)
    (hruns : 0 < runs) :
    ((expandToRawTotals cat (some root) runs 0).map RawTotal.typeId).Nodup ∧
    (∀ k : Option Nat,
      (∃ e ∈ expandToRawTotals cat (some root) runs 0, e.typeId = k) ↔
        (∃ m ∈ matsFor bp act, m.typeid = k)) ∧
    (∀ e ∈ expandToRawTotals cat (some root) runs 0,
      e.qty = sumForKey (matsFor bp act) e.typeId runs) := by
  have hie : (matsFor bp act).isEmpty = false := by
    cases h : matsFor bp act with
    | nil => exact absurd h hmats
    | cons a l => rfl
  have hwalk : walkGo cat 0 1 (some root) runs 0 ⟨[], []⟩ =
      (matsFor bp act).foldl (lineStep cat 0 (walkGo cat 0 0) runs 0)
        ⟨[], [(root, 0)]⟩ := by
    simp only [walkGo, nodeStep, hbp, hact, hie]
    simp
  have hT0 : ∀ k, qtyAt ((walkGo cat 0 1 (some root) runs 0 ⟨[], []⟩).totals) k =
      sumForKey (matsFor bp act) k runs := by
    intro k
    rw [hwalk, qtyAt_foldl_depth0]
    simp [qtyAt, alookup]
  have hTsome : ∀ k, (alookup ((walkGo cat 0 1 (some root) runs 0 ⟨[], []⟩).totals) k).isSome ↔
      ∃ m ∈ matsFor bp act, m.typeid = k := by
    intro k
    rw [hwalk, isSome_foldl_depth0]
    simp [alookup]
  have hTnd : (((walkGo cat 0 1 (some root) runs 0 ⟨[], []⟩).totals).map Prod.fst).Nodup := by
    rw [hwalk]
    exact keysNodup_foldl_depth0 _ _ _ _ _ (by simp)
  have hout : expandToRawTotals cat (some root) runs 0 =
      (((walkGo cat 0 1 (some root) runs 0 ⟨[], []⟩).totals).filter
        (fun kv => 0 < kv.2.qty)).map (fun kv => ⟨kv.1, kv.2.name, kv.2.qty⟩) := rfl
  refine ⟨?_, ?_, ?_⟩
  · rw [hout, List.map_map]
    show ((((walkGo cat 0 1 (some root) runs 0 ⟨[], []⟩).totals).filter
      (fun kv => 0 < kv.2.qty)).map Prod.fst).Nodup
    exact hTnd.sublist ((List.filter_sublist _).map Prod.fst)
  · intro k
    constructor
    · rintro ⟨e, he, hek⟩
      rw [hout] at he
      obtain ⟨kv, hkv, hfe⟩ := List.mem_map.mp he
      have hkvT := List.mem_of_mem_filter hkv
      have : (alookup ((walkGo cat 0 1 (some root) runs 0 ⟨[], []⟩).totals) kv.1).isSome :=
        (alookup_isSome_iff_mem_keys _ _).mpr (List.mem_map.mpr ⟨kv, hkvT, rfl⟩)
      have hk1 : kv.1 = k := by
        rw [← hek, ← hfe]
      rw [← hk1]
      exact (hTsome kv.1).mp this
    · rintro ⟨m, hm, hmk⟩
      have hsome : (alookup ((walkGo cat 0 1 (some root) runs 0 ⟨[], []⟩).totals) k).isSome :=
        (hTsome k).mpr ⟨m, hm, hmk⟩
      obtain ⟨e0, he0⟩ := Option.isSome_iff_exists.mp hsome
      have hqty : e0.qty = sumForKey (matsFor bp act) k runs := by
        have := hT0 k
        rwa [qtyAt, he0] at this
      have hpos : 0 < e0.qty := by
        rw [hqty]
        have hmem : (if m.typeid = k then m.quantity * runs else 0) ∈
            (matsFor bp act).map (fun m2 => if m2.typeid = k then m2.quantity * runs else 0) :=
          List.mem_map_of_mem _ hm
        have hle := List.single_le_sum (fun b _ => Nat.zero_le b) _ hmem
        rw [if_pos hmk] at hle
        have : 0 < m.quantity * runs := Nat.mul_pos (hq m hm) hruns
        exact Nat.lt_of_lt_of_le this hle
      refine ⟨⟨k, e0.name, e0.qty⟩, ?_, rfl⟩
      rw [hout]
      refine List.mem_map.mpr ⟨(k, e0), ?_, rfl⟩
      exact List.mem_filter.mpr
        ⟨mem_of_alookup_eq_some _ _ _ he0, by simpa using hpos⟩
  · intro e he
    rw [hout] at he
    obtain ⟨kv, hkv, hfe⟩ := List.mem_map.mp he
    have hkvT := List.mem_of_mem_filter hkv
    have halo : alookup ((walkGo cat 0 1 (some root) runs 0 ⟨[], []⟩).totals) kv.1 =
        some kv.2 := alookup_eq_some_of_mem_nodup _ _ _ (by simpa using hkvT) hTnd
    have hq2 : qtyAt ((walkGo cat 0 1 (some root) runs 0 ⟨[], []⟩).totals) kv.1 = kv.2.qty := by
      rw [qtyAt, halo]
    have := hT0 kv.1
    rw [hq2] at this
    rw [← hfe]
    exact this

/-- Witness for C1 on the concrete catalog `c1Cat` (three lines, one
duplicated identifier, 2 runs). -/
theorem C1_depth0_one_entry_per_line_witness :
    ((expandToRawTotals c1Cat (some 5) 2 0).map RawTotal.typeId).Nodup ∧
    (∀ k : Option Nat,
      (∃ e ∈ expandToRawTotals c1Cat (some 5) 2 0, e.typeId = k) ↔
        (∃ m ∈ matsFor bpRootC1 "1", m.typeid = k)) ∧
    (∀ e ∈ expandToRawTotals c1Cat (some 5) 2 0,
      e.qty = sumForKey (matsFor bpRootC1 "1") e.typeId 2) :=
  C1_depth0_one_entry_per_line c1Cat 5 2 bpRootC1 "1"
    (by decide) (by decide) (by decide) (by decide) (by decide)

/-- C2: revisiting a `(Identifier, depth)` pair during one walk records
a zero-quantity placeholder for that identifier and stops without
recursing; the walk's result is independent of any extra fuel beyond
`maxDepth + 1` (the recursion terminates — in particular a recipe line
referencing its own root item terminates, shown on `loopCat`, and a
tripped guard on `guardCat` leaves a zero entry behind); and the final
output only ever contains entries with positive quantity, so a
placeholder alone is never surfaced. -/
theorem C2_cycle_guard :
    (∀ (cat : Catalog) (maxDepth fuel t runCount depth : Nat) (s : ExpState),
      (t, depth) ∈ s.visited →
        walkGo cat maxDepth (fuel + 1) (some t) runCount depth s =
          { s with totals := setTotal s.totals (some t) ("Type " ++ toString t) 0 }) ∧
    (∀ (cat : Catalog) (maxDepth extra runs : Nat) (tid : Option Nat) (s : ExpState),
      walkGo cat maxDepth (maxDepth + 1 + extra) tid runs 0 s =
        walkGo cat maxDepth (maxDepth + 1) tid runs 0 s) ∧
    (expandToRawTotals loopCat (some 1) 1 1 = [⟨some 1, "Loop Booster", 4⟩]) ∧
    ((alookup ((walkGo guardCat 1 2 (some 1) 1 0 ⟨[], []⟩).totals) (some 2)).isSome ∧
      qtyAt ((walkGo guardCat 1 2 (some 1) 1 0 ⟨[], []⟩).totals) (some 2) = 0 ∧
      expandToRawTotals guardCat (some 1) 1 1 = [⟨some 3, "Gas C", 4⟩]) ∧
    (∀ (cat : Catalog) (tid : Option Nat) (runs maxDepth : Nat)
      (e : RawTotal), e ∈ expandToRawTotals cat tid runs maxDepth → 0 < e.qty) := by
  refine ⟨?_, ?_, by decide, ⟨by decide, by decide, by decide⟩, ?_⟩
  · intro cat maxDepth fuel t runCount depth s h
    simp [walkGo, nodeStep, h]
  · intro cat maxDepth extra runs tid s
    exact walkGo_fuel_stable cat maxDepth extra tid runs s
  · intro cat tid runs maxDepth e he
    obtain ⟨kv, hkv, hfe⟩ := List.mem_map.mp he
    have hp := List.of_mem_filter hkv
    rw [← hfe]
    simpa using hp

/-- Witness for C2's quantified conjuncts at concrete inputs: the guard
fires on a pre-visited pair, extra fuel does not change the self-loop
expansion, and a concrete output entry has positive quantity. -/
theorem C2_cycle_guard_witness :
    ((1, 1) ∈ (⟨[], [(1, 1)]⟩ : ExpState).visited ∧
      walkGo loopCat 1 3 (some 1) 5 1 ⟨[], [(1, 1)]⟩ =
        { totals := setTotal [] (some 1) ("Type " ++ toString 1) 0,
          visited := [(1, 1)] }) ∧
    (walkGo loopCat 1 5 (some 1) 1 0 ⟨[], []⟩ =
      walkGo loopCat 1 2 (some 1) 1 0 ⟨[], []⟩) ∧
    (⟨some 1, "Loop Booster", 4⟩ ∈ expandToRawTotals loopCat (some 1) 1 1 ∧
      0 < (4 : Nat)) :=
  ⟨⟨by decide, C2_cycle_guard.1 loopCat 1 2 1 5 1 ⟨[], [(1, 1)]⟩ (by decide)⟩,
   C2_cycle_guard.2.1 loopCat 1 3 1 (some 1) ⟨[], []⟩,
   by decide,
   C2_cycle_guard.2.2.2.2 loopCat (some 1) 1 1 ⟨some 1, "Loop Booster", 4⟩ (by decide)⟩

/-- C3 counterexample: item 2 is reached with an incoming demand of 10
units, its blueprint offers activity "1" (the key is present, hence
truthy) with an empty input-line list, and the expansion records a
zero-quantity placeholder — the output is empty instead of containing
the claimed leaf entry `(2, 10)`. -/
theorem C3_counterexample :
    pickBlueprintActivity bpEmptyMats = some "1" ∧
    matsFor bpEmptyMats "1" = [] ∧
    expandToRawTotals cexCat (some 1) 1 1 = [] ∧
    ¬ ∃ e ∈ expandToRawTotals cexCat (some 1) 1 1,
        e.typeId = some 2 ∧ e.qty = 10 := by
  refine ⟨by decide, by decide, by decide, ?_⟩
  rintro ⟨e, he, -⟩
  rw [show expandToRawTotals cexCat (some 1) 1 1 = [] from by decide] at he
  cases he

/-- C3 (amended): when the walk itself reaches a node whose fetch fails,
whose recipe has no selectable activity, or whose chosen activity has no
input lines, it records a zero-quantity placeholder — the incoming
demand is not recorded; the full demanded quantity is preserved only by
the caller: a line is recorded as a leaf with its full `needed` quantity
by the parent loop when the line is not expandable, or when the child's
blueprint fetch fails or yields no activity (both checked before
recursing). -/
theorem C3_leaf_recording_amended :
    (∀ (cat : Catalog) (maxDepth fuel t runCount depth : Nat) (s : ExpState),
      (t, depth) ∉ s.visited →
      (cat (some t) = none ∨
        (∃ bp, cat (some t) = some bp ∧ pickBlueprintActivity bp = none) ∨
        (∃ bp act, cat (some t) = some bp ∧ pickBlueprintActivity bp = some act ∧
          matsFor bp act = [])) →
      ((∀ k, qtyAt ((walkGo cat maxDepth (fuel + 1) (some t) runCount depth s).totals) k =
          qtyAt s.totals k) ∧
        (alookup ((walkGo cat maxDepth (fuel + 1) (some t) runCount depth s).totals)
          (some t)).isSome)) ∧
    (∀ (cat : Catalog) (maxDepth : Nat)
      (recur : Option Nat → Nat → Nat → ExpState → ExpState)
      (runCount depth : Nat) (s : ExpState) (m : Material),
      shouldExpandMaterial (matName m) depth maxDepth = true →
      (cat m.typeid = none ∨
        (∃ bp, cat m.typeid = some bp ∧ pickBlueprintActivity bp = none)) →
      lineStep cat maxDepth recur runCount depth s m =
        { s with totals := setTotal s.totals m.typeid (matName m) (m.quantity * runCount) }) ∧
    (∀ (cat : Catalog) (maxDepth : Nat)
      (recur : Option Nat → Nat → Nat → ExpState → ExpState)
      (runCount depth : Nat) (s : ExpState) (m : Material),
      shouldExpandMaterial (matName m) depth maxDepth = false →
      lineStep cat maxDepth recur runCount depth s m =
        { s with totals := setTotal s.totals m.typeid (matName m) (m.quantity * runCount) }) := by
  refine ⟨?_, ?_, ?_⟩
  · intro cat maxDepth fuel t runCount depth s hv hcase
    have hres : ∃ nm, walkGo cat maxDepth (fuel + 1) (some t) runCount depth s =
        { totals := setTotal s.totals (some t) nm 0,
          visited := (t, depth) :: s.visited } := by
      rcases hcase with hnone | ⟨bp, hbp, hpk⟩ | ⟨bp, act, hbp, hpk, hmf⟩
      · exact ⟨"Type " ++ toString t, by simp [walkGo, nodeStep, hv, hnone]⟩
      · exact ⟨bpName bp t, by simp [walkGo, nodeStep, hv, hbp, hpk]⟩
      · refine ⟨bpName bp t, by simp [walkGo, nodeStep, hv, hbp, hpk, hmf]⟩
    obtain ⟨nm, hres⟩ := hres
    rw [hres]
    constructor
    · intro k
      rw [qtyAt_setTotal]
      simp
    · rw [isSome_setTotal]
      exact Or.inr rfl
  · intro cat maxDepth recur runCount depth s m hex hcase
    rcases hcase with hnone | ⟨bp, hbp, hpk⟩
    · simp [lineStep, hex, hnone]
    · simp [lineStep, hex, hbp, hpk]
  · intro cat maxDepth recur runCount depth s m hex
    exact lineStep_leaf cat maxDepth recur runCount depth s m hex

/-- Witness for C3's amended statement: a failed child fetch (id 3 is
absent from `cexCat`) is recorded by the walk as a zero placeholder, and
a line whose child has no blueprint is recorded by the parent with its
full needed quantity. -/
theorem C3_leaf_recording_amended_witness :
    ((3, 0) ∉ (⟨[], []⟩ : ExpState).visited ∧ cexCat (some 3) = none ∧
      (∀ k, qtyAt ((walkGo cexCat 1 1 (some 3) 7 0 ⟨[], []⟩).totals) k =
          qtyAt (⟨[], []⟩ : ExpState).totals k) ∧
      (alookup ((walkGo cexCat 1 1 (some 3) 7 0 ⟨[], []⟩).totals) (some 3)).isSome) ∧
    (shouldExpandMaterial (matName ⟨some 3, some "Beta Booster", 6⟩) 0 1 = true ∧
      lineStep cexCat 1 (walkGo cexCat 1 0) 2 0 ⟨[], []⟩ ⟨some 3, some "Beta Booster", 6⟩ =
        { totals := setTotal [] (some 3) (matName ⟨some 3, some "Beta Booster", 6⟩) 12,
          visited := [] }) := by
  have h1 := (C3_leaf_recording_amended.1 cexCat 1 0 3 7 0 ⟨[], []⟩
    (by decide) (Or.inl (by decide)))
  have h2 := C3_leaf_recording_amended.2.1 cexCat 1 (walkGo cexCat 1 0) 2 0 ⟨[], []⟩
    ⟨some 3, some "Beta Booster", 6⟩ (by decide) (Or.inl (by decide))
  exact ⟨⟨by decide, by decide, h1.1, h1.2⟩, ⟨by decide, h2⟩⟩

/-! ## Rate-limited gateway lemmas -/
theorem adamStep_now (s : AdamState) (c : AdamCall) :
    (adamStep s c).1.now = (adamStep s c).2.finish := rfl

theorem adamStep_issue_ge (s : AdamState) (c : AdamCall) :
    s.now ≤ (adamStep s c).2.issue := by
  have h : (0 : Int) ≤ adamWait s := le_max_left 0 _
  show s.now ≤ s.now + adamWait s
  omega

theorem adamStep_finish_ge (s : AdamState) (c : AdamCall) :
    (adamStep s c).2.issue ≤ (adamStep s c).2.finish := by
  show s.now + adamWait s ≤ s.now + adamWait s + (c.latency : Int)
  have h : (0 : Int) ≤ (c.latency : Int) := Int.natCast_nonneg _
  omega

theorem adamRun_issue_ge (calls : List AdamCall) :
    ∀ (s : AdamState) (t : AdamTiming), t ∈ (adamRun s calls).2 → s.now ≤ t.issue := by
  induction calls with
  | nil => intro s t ht; simp [adamRun] at ht
  | cons c rest ih =>
    intro s t ht
    rcases List.mem_cons.mp ht with hh | htl
    · subst hh
      exact adamStep_issue_ge s c
    · have h1 := ih (adamStep s c).1 t htl
      have h2 : s.now ≤ (adamStep s c).1.now := by
        rw [adamStep_now]
        exact le_trans (adamStep_issue_ge s c) (adamStep_finish_ge s c)
      omega

theorem adamRun_now_eq_lastFinish (calls : List AdamCall) :
    ∀ s : AdamState, (adamRun s calls).1.now = lastFinish s calls := by
  induction calls with
  | nil => intro s; rfl
  | cons c rest ih =>
    intro s
    show (adamRun (adamStep s c).1 rest).1.now = lastFinish s (c :: rest)
    rw [ih (adamStep s c).1]
    unfold lastFinish
    show ((adamRun (adamStep s c).1 rest).2.getLastD
        ⟨(adamStep s c).1.now, (adamStep s c).1.now⟩).finish =
      (((adamStep s c).2 :: (adamRun (adamStep s c).1 rest).2).getLastD
        ⟨s.now, s.now⟩).finish
    rw [List.getLastD_cons]
    cases hrt : (adamRun (adamStep s c).1 rest).2 with
    | nil => simp [List.getLastD, adamStep_now]
    | cons t ts =>
      obtain ⟨x, hx⟩ := Option.isSome_iff_exists.mp
        (List.getLast?_isSome.mpr (List.cons_ne_nil t ts))
      rw [List.getLastD_eq_getLast?, List.getLastD_eq_getLast?, hx]
      rfl

theorem adamRun_allOk_invariant (calls : List AdamCall) :
    ∀ s : AdamState, s.lastCallMs = s.now → (∀ c ∈ calls, c.ok = true) →
      s.now + (calls.length : Int) * 5100 ≤ (adamRun s calls).1.now ∧
      (adamRun s calls).1.lastCallMs = (adamRun s calls).1.now := by
  induction calls with
  | nil => intro s hinv _; exact ⟨by simp [adamRun], hinv⟩
  | cons c rest ih =>
    intro s hinv hok
    have hcok : c.ok = true := hok c (List.mem_cons_self c rest)
    have hwait : adamWait s = 5100 := by
      unfold adamWait
      rw [hinv]
      simp
    have hfin : (adamStep s c).1.now = s.now + 5100 + (c.latency : Int) := by
      show s.now + adamWait s + (c.latency : Int) = _
      rw [hwait]
    have hinv2 : (adamStep s c).1.lastCallMs = (adamStep s c).1.now := by
      show (if c.ok then s.now + adamWait s + (c.latency : Int) else s.lastCallMs) = _
      rw [hcok]
      rfl
    obtain ⟨hbound, hlast⟩ := ih (adamStep s c).1 hinv2
      (fun c2 hc2 => hok c2 (List.mem_cons_of_mem c hc2))
    refine ⟨?_, hlast⟩
    have hlat : (0 : Int) ≤ (c.latency : Int) := Int.natCast_nonneg _
    have hstep : s.now + 5100 ≤ (adamStep s c).1.now := by omega
    show s.now + ((c :: rest).length : Int) * 5100 ≤ (adamRun (adamStep s c).1 rest).1.now
    have hlen : ((c :: rest).length : Int) = (rest.length : Int) + 1 := by
      simp
    rw [hlen]
    have : (adamStep s c).1.now + (rest.length : Int) * 5100 ≤
        (adamRun (adamStep s c).1 rest).1.now := hbound
    nlinarith

/-- C4 counterexample: two queued calls where the first fails complete
only 0 ms apart — far less than `minInterval` — because a failed call
does not advance `lastCallTimestamp`.  With `lastCallTimestamp = 0` and
the queue starting at t = 10000, both calls are issued immediately and
the pair completes at t = 10000, violating the claimed
`(N−1) × minInterval` lower bound. -/
theorem C4_counterexample :
    (adamRun ⟨0, 10000⟩ [⟨0, false⟩, ⟨0, true⟩]).2 =
      [⟨10000, 10000⟩, ⟨10000, 10000⟩] ∧
    ¬ ((10000 : Int) + ((2 : Int) - 1) * 5100 ≤
        lastFinish ⟨0, 10000⟩ [⟨0, false⟩, ⟨0, true⟩]) := by
  constructor
  · decide
  · intro h
    have : lastFinish ⟨0, 10000⟩ [⟨0, false⟩, ⟨0, true⟩] = 10000 := by decide
    omega

/-- C4 (amended): the gateway processes exactly the submitted calls, one
at a time in FIFO order (each call is issued no earlier than the
previous call's completion, after the `max(0, 5100 − (now − last))`
wait), and — provided every call succeeds — N queued calls complete no
earlier than `(N−1) × 5100` ms after the first continuation starts.  A
failed call does not advance `lastCallTimestamp`, so sequences
containing failures may finish sooner (see the counterexample). -/
theorem C4_rate_limit_amended :
    (∀ (s : AdamState) (calls : List AdamCall),
      (adamRun s calls).2.length = calls.length) ∧
    (∀ (s : AdamState) (c : AdamCall),
      (adamStep s c).2.issue = s.now + max 0 (5100 - (s.now - s.lastCallMs)) ∧
      s.now ≤ (adamStep s c).2.issue ∧
      (adamStep s c).2.issue ≤ (adamStep s c).2.finish ∧
      (adamStep s c).1.now = (adamStep s c).2.finish) ∧
    (∀ (s : AdamState) (calls : List AdamCall),
      List.Chain' (fun a b => a.finish ≤ b.issue) (adamRun s calls).2) ∧
    (∀ (s : AdamState) (calls : List AdamCall),
      calls ≠ [] → (∀ c ∈ calls, c.ok = true) →
        s.now + ((calls.length : Int) - 1) * 5100 ≤ lastFinish s calls) := by
  refine ⟨?_, ?_, ?_, ?_⟩
  · intro s calls
    induction calls generalizing s with
    | nil => rfl
    | cons c rest ih =>
      show ((adamStep s c).2 :: (adamRun (adamStep s c).1 rest).2).length = rest.length + 1
      rw [List.length_cons, ih]
  · intro s c
    exact ⟨rfl, adamStep_issue_ge s c, adamStep_finish_ge s c, rfl⟩
  · intro s calls
    induction calls generalizing s with
    | nil => exact List.chain'_nil
    | cons c rest ih =>
      show List.Chain' _ ((adamStep s c).2 :: (adamRun (adamStep s c).1 rest).2)
      refine List.Chain'.cons' (ih (adamStep s c).1) ?_
      intro y hy
      have hmem : y ∈ (adamRun (adamStep s c).1 rest).2 := by
        cases hr : (adamRun (adamStep s c).1 rest).2 with
        | nil => rw [hr] at hy; cases hy
        | cons a l =>
          rw [hr] at hy
          simp at hy
          subst hy
          exact List.mem_cons_self _ _
      have := adamRun_issue_ge rest (adamStep s c).1 y hmem
      rw [adamStep_now] at this
      exact this
  · intro s calls hne hok
    cases calls with
    | nil => exact absurd rfl hne
    | cons c rest =>
      rw [← adamRun_now_eq_lastFinish]
      have hcok : c.ok = true := hok c (List.mem_cons_self c rest)
      have hinv2 : (adamStep s c).1.lastCallMs = (adamStep s c).1.now := by
        show (if c.ok then s.now + adamWait s + (c.latency : Int) else s.lastCallMs) = _
        rw [hcok]
        rfl
      have hge : s.now ≤ (adamStep s c).1.now := by
        rw [adamStep_now]
        exact le_trans (adamStep_issue_ge s c) (adamStep_finish_ge s c)
      obtain ⟨hbound, -⟩ := adamRun_allOk_invariant rest (adamStep s c).1 hinv2
        (fun c2 hc2 => hok c2 (List.mem_cons_of_mem c hc2))
      show s.now + (((c :: rest).length : Int) - 1) * 5100 ≤
        (adamRun (adamStep s c).1 rest).1.now
      have hlen : (((c :: rest).length : Int) - 1) = (rest.length : Int) := by
        simp
      rw [hlen]
      omega

/-- Witness for C4's amended statement on a concrete all-success queue
of three calls starting from a fresh gateway. -/
theorem C4_rate_limit_amended_witness :
    (adamRun ⟨0, 0⟩ [⟨7, true⟩, ⟨3, true⟩, ⟨2, true⟩]).2.length = 3 ∧
    ([⟨7, true⟩, ⟨3, true⟩, ⟨2, true⟩] : List AdamCall) ≠ [] ∧
    (0 : Int) + ((3 : Int) - 1) * 5100 ≤
      lastFinish ⟨0, 0⟩ [⟨7, true⟩, ⟨3, true⟩, ⟨2, true⟩] :=
  ⟨C4_rate_limit_amended.1 ⟨0, 0⟩ [⟨7, true⟩, ⟨3, true⟩, ⟨2, true⟩],
   by decide,
   C4_rate_limit_amended.2.2.2 ⟨0, 0⟩ [⟨7, true⟩, ⟨3, true⟩, ⟨2, true⟩]
     (by decide) (by decide)⟩

/-- C5 counterexample: a failed call completes at t = 10005 yet leaves
`lastCallTimestamp` at its previous value 0, contradicting the claim
that it is updated to the completion time whether the call succeeded or
failed. -/
theorem C5_counterexample :
    (adamStep ⟨0, 10000⟩ ⟨5, false⟩).2.finish = 10005 ∧
    (adamStep ⟨0, 10000⟩ ⟨5, false⟩).1.lastCallMs = 0 ∧
    (adamStep ⟨0, 10000⟩ ⟨5, false⟩).1.lastCallMs ≠
      (adamStep ⟨0, 10000⟩ ⟨5, false⟩).2.finish := by
  refine ⟨by decide, by decide, by decide⟩

/-- C5 (amended): `lastCallTimestamp` is updated to the completion time
only when the call succeeds; a failed call leaves it unchanged, so the
call after a failure is spaced relative to the last successful call
(or the initial value), not the failure. -/
theorem C5_lastCall_amended :
    (∀ (s : AdamState) (c : AdamCall),
      (adamStep s c).1.lastCallMs =
        (if c.ok then (adamStep s c).2.finish else s.lastCallMs) ∧
      (adamStep s c).1.now = (adamStep s c).2.finish) ∧
    (∀ (s : AdamState) (calls : List AdamCall),
      (∀ c ∈ calls, c.ok = false) →
        (adamRun s calls).1.lastCallMs = s.lastCallMs) := by
  constructor
  · intro s c
    exact ⟨rfl, rfl⟩
  · intro s calls
    induction calls generalizing s with
    | nil => intro _; rfl
    | cons c rest ih =>
      intro hall
      have hcf : c.ok = false := hall c (List.mem_cons_self c rest)
      have h1 : (adamStep s c).1.lastCallMs = s.lastCallMs := by
        show (if c.ok then s.now + adamWait s + (c.latency : Int) else s.lastCallMs) = _
        rw [hcf]
        rfl
      show (adamRun (adamStep s c).1 rest).1.lastCallMs = s.lastCallMs
      rw [ih (adamStep s c).1 (fun c2 hc2 => hall c2 (List.mem_cons_of_mem c hc2)), h1]

/-- Witness for C5's amended statement: an all-failure queue keeps the
initial `lastCallTimestamp`. -/
theorem C5_lastCall_amended_witness :
    (adamStep ⟨3, 9⟩ ⟨5, true⟩).1.lastCallMs =
      (if (true : Bool) then (adamStep ⟨3, 9⟩ ⟨5, true⟩).2.finish else (3 : Int)) ∧
    (adamRun ⟨3, 9⟩ [⟨1, false⟩, ⟨2, false⟩]).1.lastCallMs = 3 :=
  ⟨(C5_lastCall_amended.1 ⟨3, 9⟩ ⟨5, true⟩).1,
   C5_lastCall_amended.2 ⟨3, 9⟩ [⟨1, false⟩, ⟨2, false⟩] (by decide)⟩

/-! ## Cached data client theorems -/
/-- C6: a failing fetch — non-success HTTP status or an unparseable
body — leaves the in-memory cache exactly as it was (no prior entry is
cleared, overwritten or replaced), and any cache change stores the
successfully parsed payload under the request's key with the current
timestamp. -/
theorem C6_cache_unchanged_on_failure {α : Type} :
    (∀ (cache : Cache α) (url : String) (ttlMs now : Int) (st : Nat),
      (fetchJson cache url ttlMs now (.transportError st)).2 = cache) ∧
    (∀ (cache : Cache α) (url : String) (ttlMs now : Int),
      (fetchJson cache url ttlMs now .parseError).2 = cache) ∧
    (∀ (cache : Cache α) (url : String) (ttlMs now : Int)
      (resp : FetchResponse α) (e : FetchError),
      (fetchJson cache url ttlMs now resp).1 = .error e →
        (fetchJson cache url ttlMs now resp).2 = cache) ∧
    (∀ (cache : Cache α) (url : String) (ttlMs now : Int)
      (resp : FetchResponse α),
      (fetchJson cache url ttlMs now resp).2 = cache ∨
        ∃ d, resp = .payload d ∧
          (fetchJson cache url ttlMs now resp).2 =
            mapSet cache ("json:" ++ url) ⟨now, d⟩) := by
  refine ⟨?_, ?_, ?_, ?_⟩
  · intro cache url ttlMs now st
    unfold fetchJson
    cases halo : alookup cache ("json:" ++ url) with
    | none => simp only [halo]
    | some hit =>
      simp only [halo]
      split <;> rfl
  · intro cache url ttlMs now
    unfold fetchJson
    cases halo : alookup cache ("json:" ++ url) with
    | none => simp only [halo]
    | some hit =>
      simp only [halo]
      split <;> rfl
  · intro cache url ttlMs now resp e h
    unfold fetchJson at h ⊢
    cases halo : alookup cache ("json:" ++ url) with
    | none =>
      simp only [halo] at h ⊢
      cases resp <;> simp_all
    | some hit =>
      simp only [halo] at h ⊢
      by_cases hc : ttlMs ≤ 0 ∨ now - hit.time < ttlMs
      · simp [hc] at h
      · simp only [if_neg hc] at h ⊢
        cases resp <;> simp_all
  · intro cache url ttlMs now resp
    unfold fetchJson
    cases halo : alookup cache ("json:" ++ url) with
    | none =>
      simp only [halo]
      cases resp with
      | transportError st => exact Or.inl rfl
      | parseError => exact Or.inl rfl
      | payload d => exact Or.inr ⟨d, rfl, rfl⟩
    | some hit =>
      simp only [halo]
      by_cases hc : ttlMs ≤ 0 ∨ now - hit.time < ttlMs
      · simp only [if_pos hc]
        left
        trivial
      · simp only [if_neg hc]
        cases resp with
        | transportError st => exact Or.inl rfl
        | parseError => exact Or.inl rfl
        | payload d => exact Or.inr ⟨d, rfl, rfl⟩

/-- Witness for C6: a populated one-entry cache, a stale TTL, and a
failing response leave the cache untouched; the successful case stores
the parsed value. -/
theorem C6_cache_unchanged_on_failure_witness :
    ((fetchJson (α := Nat) [("json:u", ⟨0, 42⟩)] "u" 10 100 (.transportError 500)).2 =
      [("json:u", ⟨0, 42⟩)]) ∧
    ((fetchJson (α := Nat) [("json:u", ⟨0, 42⟩)] "u" 10 100 .parseError).2 =
      [("json:u", ⟨0, 42⟩)]) ∧
    ((fetchJson (α := Nat) [("json:u", ⟨0, 42⟩)] "u" 10 100
        (.transportError 500)).1 = .error (.httpStatus 500 "u") →
      (fetchJson (α := Nat) [("json:u", ⟨0, 42⟩)] "u" 10 100
        (.transportError 500)).2 = [("json:u", ⟨0, 42⟩)]) :=
  ⟨C6_cache_unchanged_on_failure.1 [("json:u", ⟨0, 42⟩)] "u" 10 100 500,
   C6_cache_unchanged_on_failure.2.1 [("json:u", ⟨0, 42⟩)] "u" 10 100,
   C6_cache_unchanged_on_failure.2.2.1 [("json:u", ⟨0, 42⟩)] "u" 10 100
     (.transportError 500) (.httpStatus 500 "u")⟩

/-! ## Market aggregator theorems -/
/-- C7 counterexample: `renderRawMaterials` returns only the numeric
total, so two inputs with different numbers of unknown-priced lines can
produce identical return values — the count of skipped items is not
reported to the caller. -/
theorem C7_counterexample :
    renderRawMaterials aggC7 rawLinesA "sell_min" =
      renderRawMaterials aggC7 rawLinesB "sell_min" ∧
    skippedCount aggC7 rawLinesA "sell_min" = 0 ∧
    skippedCount aggC7 rawLinesB "sell_min" = 1 := by
  refine ⟨?_, ?_, ?_⟩ <;>
    · norm_num [renderRawMaterials, renderRawRows, skippedCount, getAggPrice,
        aggC7, rawLinesA, rawLinesB, alookup]
      try decide

/-- C7 (amended): `getAggPrice` yields unknown — never a default
number — when the station document, the per-type record, or the
requested side is absent; the rendered table still lists every line
(one row per raw total) and the returned material cost sums exactly the
lines with a known price, skipping the others; but no count of skipped
lines is part of the return value (see the counterexample). -/
theorem C7_unknown_prices_amended :
    (∀ (tid : Nat) (mode : String), getAggPrice none tid mode = none) ∧
    (∀ (a : Agg) (tid : Nat) (mode : String),
      alookup a tid = none → getAggPrice (some a) tid mode = none) ∧
    (∀ (a : Agg) (tid : Nat) (rec : Quote),
      alookup a tid = some rec → rec.buy = none →
        getAggPrice (some a) tid "buy_max" = none) ∧
    (∀ (a : Agg) (tid : Nat) (rec : Quote) (mode : String),
      alookup a tid = some rec → rec.sell = none → mode ≠ "buy_max" →
        getAggPrice (some a) tid mode = none) ∧
    (∀ (agg : Agg) (raw : List RawLine) (mode : String),
      (renderRawRows agg raw mode).length = raw.length ∧
      ((renderRawRows agg raw mode).map (fun x => x.1)).Perm raw ∧
      renderRawMaterials agg raw mode =
        (raw.filterMap
          (fun r => (getAggPrice (some agg) r.typeId mode).map (· * r.qty))).sum) := by
  refine ⟨?_, ?_, ?_, ?_, ?_⟩
  · intro tid mode
    rfl
  · intro a tid mode h
    simp [getAggPrice, h]
  · intro a tid rec h hb
    simp [getAggPrice, h, hb]
  · intro a tid rec mode h hs hm
    simp [getAggPrice, h, hs, hm]
  · intro agg raw mode
    have hperm : (List.insertionSort (fun a b => b.qty ≤ a.qty) raw).Perm raw :=
      List.perm_insertionSort _ raw
    refine ⟨?_, ?_, ?_⟩
    · simp only [renderRawRows, List.length_map]
      exact hperm.length_eq
    · simp only [renderRawRows, List.map_map]
      have hid : ∀ l : List RawLine,
          (l.map ((fun (x : RawLine × Option ℚ × Option ℚ) => x.1) ∘ (fun r =>
            (r, getAggPrice (some agg) r.typeId mode,
              (getAggPrice (some agg) r.typeId mode).map (· * r.qty))))) = l := by
        intro l
        induction l with
        | nil => rfl
        | cons a t ih => simp only [List.map_cons, ih, Function.comp_apply]
      rw [hid]
      exact hperm
    · simp only [renderRawMaterials, renderRawRows, List.filterMap_map]
      refine List.Perm.sum_eq (List.Perm.filterMap _ hperm)

/-- Witness for C7's amended statement at concrete inputs. -/
theorem C7_unknown_prices_amended_witness :
    getAggPrice none 1 "sell_min" = none ∧
    (alookup aggC7 99 = none → getAggPrice (some aggC7) 99 "sell_min" = none) ∧
    ((renderRawRows aggC7 rawLinesB "sell_min").length = rawLinesB.length ∧
      ((renderRawRows aggC7 rawLinesB "sell_min").map (fun x => x.1)).Perm rawLinesB ∧
      renderRawMaterials aggC7 rawLinesB "sell_min" =
        (rawLinesB.filterMap
          (fun r => (getAggPrice (some aggC7) r.typeId "sell_min").map (· * r.qty))).sum) :=
  ⟨C7_unknown_prices_amended.1 1 "sell_min",
   C7_unknown_prices_amended.2.1 aggC7 99 "sell_min",
   C7_unknown_prices_amended.2.2.2.2 aggC7 rawLinesB "sell_min"⟩

/-! ## Trend analyzer theorems -/
theorem foldl_min_mem {α : Type} [LinearOrder α] :
    ∀ (qs : List α) (q : α), qs.foldl min q ∈ q :: qs := by
  intro qs
  induction qs with
  | nil => intro q; simp
  | cons a as ih =>
    intro q
    rw [List.foldl_cons]
    rcases List.mem_cons.mp (ih (min q a)) with hh | ht
    · rw [hh]
      rcases min_choice q a with hm | hm
      · rw [hm]; exact List.mem_cons_self q (a :: as)
      · rw [hm]; exact List.mem_cons_of_mem q (List.mem_cons_self a as)
    · exact List.mem_cons_of_mem q (List.mem_cons_of_mem a ht)

theorem foldl_min_le {α : Type} [LinearOrder α] :
    ∀ (qs : List α) (q p : α), p ∈ q :: qs → qs.foldl min q ≤ p := by
  intro qs
  induction qs with
  | nil =>
    intro q p hp
    simp at hp
    subst hp
    simp
  | cons a as ih =>
    intro q p hp
    rw [List.foldl_cons]
    rcases List.mem_cons.mp hp with hh | ht
    · rw [hh]
      exact le_trans (ih (min q a) (min q a) (List.mem_cons_self _ _)) (min_le_left q a)
    · rcases List.mem_cons.mp ht with hh2 | ht2
      · rw [hh2]
        exact le_trans (ih (min q a) (min q a) (List.mem_cons_self _ _)) (min_le_right q a)
      · exact ih (min q a) p (List.mem_cons_of_mem _ ht2)

theorem foldl_max_mem {α : Type} [LinearOrder α] :
    ∀ (qs : List α) (q : α), qs.foldl max q ∈ q :: qs := by
  intro qs
  induction qs with
  | nil => intro q; simp
  | cons a as ih =>
    intro q
    rw [List.foldl_cons]
    rcases List.mem_cons.mp (ih (max q a)) with hh | ht
    · rw [hh]
      rcases max_choice q a with hm | hm
      · rw [hm]; exact List.mem_cons_self q (a :: as)
      · rw [hm]; exact List.mem_cons_of_mem q (List.mem_cons_self a as)
    · exact List.mem_cons_of_mem q (List.mem_cons_of_mem a ht)

theorem foldl_max_ge {α : Type} [LinearOrder α] :
    ∀ (qs : List α) (q p : α), p ∈ q :: qs → p ≤ qs.foldl max q := by
  intro qs
  induction qs with
  | nil =>
    intro q p hp
    simp at hp
    subst hp
    simp
  | cons a as ih =>
    intro q p hp
    rw [List.foldl_cons]
    rcases List.mem_cons.mp hp with hh | ht
    · rw [hh]
      exact le_trans (le_max_left q a) (ih (max q a) (max q a) (List.mem_cons_self _ _))
    · rcases List.mem_cons.mp ht with hh2 | ht2
      · rw [hh2]
        exact le_trans (le_max_right q a) (ih (max q a) (max q a) (List.mem_cons_self _ _))
      · exact ih (max q a) p (List.mem_cons_of_mem _ ht2)

theorem trendStats_eq_nil (rows : List HistRow) (h : sortRows rows = []) :
    trendStats rows = none := by
  unfold trendStats
  rw [h]

theorem trendStats_eq_cons (rows : List HistRow) (f : HistRow) (rest : List HistRow)
    (h : sortRows rows = f :: rest) :
    trendStats rows =
      (match validPrices (f :: rest) with
      | [] => none
      | q :: qs =>
        some ⟨f.sell_price_avg, ((f :: rest).getLastD f).sell_price_avg,
          qs.foldl min q, qs.foldl max q,
          (q :: qs).sum / ((q :: qs).length : ℚ),
          match f.sell_price_avg, ((f :: rest).getLastD f).sell_price_avg with
          | some a, some b => if 0 < a then some ((b - a) / a * 100) else none
          | _, _ => none⟩) := by
  unfold trendStats
  rw [h]

/-- C8: the trend analyzer sorts each price series by date ascending
(without losing or duplicating rows), computes min, max and average over
the valid (numeric, strictly positive) price points only, takes `first`
and `last` from the date-sorted series, computes
`percentChange = (last − first) / first × 100` when the first price is a
known positive number and leaves it absent when the first price is
unknown or not positive; on the series
[100, 90, 80, 70, 60, 50, 40, 30] the percent change is exactly −70. -/
theorem C8_trend_stats :
    (∀ rows : List HistRow,
      List.Pairwise (fun a b => a.price_date ≤ b.price_date) (sortRows rows) ∧
      (sortRows rows).Perm rows) ∧
    (∀ (rows : List HistRow) (stats : TrendStats), trendStats rows = some stats →
      (stats.min ∈ validPrices rows ∧ ∀ p ∈ validPrices rows, stats.min ≤ p) ∧
      (stats.max ∈ validPrices rows ∧ ∀ p ∈ validPrices rows, p ≤ stats.max) ∧
      stats.avg = (validPrices rows).sum / ((validPrices rows).length : ℚ) ∧
      (∀ f rest, sortRows rows = f :: rest →
        stats.first = f.sell_price_avg ∧
        stats.last = ((f :: rest).getLastD f).sell_price_avg) ∧
      (∀ a b, stats.first = some a → stats.last = some b → 0 < a →
        stats.pct = some ((b - a) / a * 100)) ∧
      (stats.first = none → stats.pct = none) ∧
      (∀ a, stats.first = some a → a ≤ 0 → stats.pct = none)) ∧
    trendStats gasSeries = some ⟨some 100, some 30, 30, 100, 65, some (-70)⟩ := by
  refine ⟨?_, ?_, ?_⟩
  · intro rows
    haveI htot : IsTotal HistRow (fun a b => a.price_date ≤ b.price_date) :=
      ⟨fun a b => Nat.le_total _ _⟩
    haveI htr : IsTrans HistRow (fun a b => a.price_date ≤ b.price_date) :=
      ⟨fun _ _ _ hab hbc => le_trans hab hbc⟩
    exact ⟨List.sorted_insertionSort _ rows, List.perm_insertionSort _ rows⟩
  · intro rows stats h
    have hperm : (sortRows rows).Perm rows := List.perm_insertionSort _ rows
    have hvperm : (validPrices (sortRows rows)).Perm (validPrices rows) :=
      hperm.filterMap _
    cases hs : sortRows rows with
    | nil => rw [trendStats_eq_nil rows hs] at h; cases h
    | cons f rest =>
      rw [trendStats_eq_cons rows f rest hs] at h
      rw [hs] at hvperm
      cases hv : validPrices (f :: rest) with
      | nil =>
        rw [hv] at h
        simp at h
      | cons q qs =>
        rw [hv] at h hvperm
        simp only [Option.some.injEq] at h
        subst h
        refine ⟨⟨?_, ?_⟩, ⟨?_, ?_⟩, ?_, ?_, ?_, ?_, ?_⟩
        · exact hvperm.mem_iff.mp (foldl_min_mem qs q)
        · intro p hp
          have hp2 : p ∈ q :: qs := hvperm.mem_iff.mpr hp
          exact foldl_min_le qs q p hp2
        · exact hvperm.mem_iff.mp (foldl_max_mem qs q)
        · intro p hp
          have hp2 : p ∈ q :: qs := hvperm.mem_iff.mpr hp
          exact foldl_max_ge qs q p hp2
        · show (q :: qs).sum / ((q :: qs).length : ℚ) = _
          rw [hvperm.sum_eq, hvperm.length_eq]
        · intro f2 rest2 h2
          injection h2 with hf hr
          subst hf
          subst hr
          exact ⟨rfl, rfl⟩
        · intro a b ha hb hpos
          show (match f.sell_price_avg,
              (((f :: rest).getLastD f).sell_price_avg) with
            | some a, some b => if 0 < a then some ((b - a) / a * 100) else none
            | _, _ => none) = some ((b - a) / a * 100)
          rw [show f.sell_price_avg = some a from ha,
            show ((f :: rest).getLastD f).sell_price_avg = some b from hb]
          simp [hpos]
        · intro ha
          show (match f.sell_price_avg,
              (((f :: rest).getLastD f).sell_price_avg) with
            | some a, some b => if 0 < a then some ((b - a) / a * 100) else none
            | _, _ => none) = none
          rw [show f.sell_price_avg = none from ha]
        · intro a ha hle
          show (match f.sell_price_avg,
              (((f :: rest).getLastD f).sell_price_avg) with
            | some a, some b => if 0 < a then some ((b - a) / a * 100) else none
            | _, _ => none) = none
          rw [show f.sell_price_avg = some a from ha]
          cases ((f :: rest).getLastD f).sell_price_avg with
          | none => rfl
          | some b => simp [not_lt_of_le hle]
  · have hsort : sortRows gasSeries =
        [⟨1, some 100⟩, ⟨2, some 90⟩, ⟨3, some 80⟩, ⟨4, some 70⟩,
         ⟨5, some 60⟩, ⟨6, some 50⟩, ⟨7, some 40⟩, ⟨8, some 30⟩] := by decide
    rw [trendStats_eq_cons gasSeries _ _ hsort]
    have hval : validPrices
        ([⟨1, some 100⟩, ⟨2, some 90⟩, ⟨3, some 80⟩, ⟨4, some 70⟩,
          ⟨5, some 60⟩, ⟨6, some 50⟩, ⟨7, some 40⟩, ⟨8, some 30⟩] : List HistRow) =
        [100, 90, 80, 70, 60, 50, 40, 30] := by decide
    rw [hval]
    norm_num [TrendStats.mk.injEq, min_def, max_def, List.getLastD]

/-- Witness for C8's quantified conjuncts at the concrete 7-day
series. -/
theorem C8_trend_stats_witness :
    (List.Pairwise (fun a b => a.price_date ≤ b.price_date) (sortRows gasSeries) ∧
      (sortRows gasSeries).Perm gasSeries) ∧
    ((⟨some 100, some 30, 30, 100, 65, some (-70)⟩ : TrendStats).min ∈
        validPrices gasSeries ∧
      ∀ p ∈ validPrices gasSeries,
        (⟨some 100, some 30, 30, 100, 65, some (-70)⟩ : TrendStats).min ≤ p) :=
  ⟨C8_trend_stats.1 gasSeries,
   (C8_trend_stats.2.1 gasSeries ⟨some 100, some 30, 30, 100, 65, some (-70)⟩
     C8_trend_stats.2.2).1⟩

/-! ## Costing calculator theorem -/
/-- C9: the calculator derives
`allInCost = materialCost + acquisitionCost`,
`perRun = allInCost / runs`,
`perUnit = allInCost / max(runs × outputPerRun, 1)`, and — when the
output unit price is known — `revenue = price × runs × outputPerRun`
and `profit = revenue − allInCost` (absent otherwise); the run count is
clamped to at least 1 when parsed and the per-unit divisor is clamped to
at least 1, so every division has a positive denominator. -/
theorem C9_calc_figures (materialCost bpcCost : ℚ)
    (runsInput productQuantity outUnitPrice : Option ℚ) :
    (calcFigures materialCost bpcCost runsInput productQuantity outUnitPrice).allInCost =
      materialCost + bpcCost ∧
    (calcFigures materialCost bpcCost runsInput productQuantity outUnitPrice).totalOutputUnits =
      ((toRuns runsInput : ℚ) * productQuantity.getD 1) ∧
    (calcFigures materialCost bpcCost runsInput productQuantity outUnitPrice).costPerRun =
      (materialCost + bpcCost) / ((toRuns runsInput : Int) : ℚ) ∧
    (calcFigures materialCost bpcCost runsInput productQuantity outUnitPrice).costPerUnit =
      (materialCost + bpcCost) / max ((toRuns runsInput : ℚ) * productQuantity.getD 1) 1 ∧
    (calcFigures materialCost bpcCost runsInput productQuantity outUnitPrice).bpcPerRun =
      bpcCost / ((toRuns runsInput : Int) : ℚ) ∧
    (calcFigures materialCost bpcCost runsInput productQuantity outUnitPrice).bpcPerUnit =
      bpcCost / max ((toRuns runsInput : ℚ) * productQuantity.getD 1) 1 ∧
    (calcFigures materialCost bpcCost runsInput productQuantity outUnitPrice).estRevenue =
      outUnitPrice.map (fun p => p * ((toRuns runsInput : ℚ) * productQuantity.getD 1)) ∧
    (calcFigures materialCost bpcCost runsInput productQuantity outUnitPrice).estProfit =
      outUnitPrice.map (fun p =>
        p * ((toRuns runsInput : ℚ) * productQuantity.getD 1) -
          (materialCost + bpcCost)) ∧
    (1 : Int) ≤ toRuns runsInput ∧
    (1 : ℚ) ≤ max ((toRuns runsInput : ℚ) * productQuantity.getD 1) 1 := by
  refine ⟨rfl, rfl, rfl, rfl, rfl, rfl, rfl, rfl, ?_, ?_⟩
  · exact le_max_left 1 _
  · exact le_max_right _ 1

/-! ## Name resolver theorems -/
theorem alookup_isSome_mergeRows (rows : List TypeRow) :
    ∀ (m : List (String × Nat)) (n : String),
      (alookup m n).isSome → (alookup (mergeRows m rows) n).isSome := by
  induction rows with
  | nil => intro m n h; exact h
  | cons row rest ih =>
    intro m n h
    unfold mergeRows
    rw [List.foldl_cons]
    by_cases hc : row.typeName ≠ "" ∧ row.typeID ≠ 0
    · simp only [if_pos hc]
      refine ih _ n ?_
      rw [alookup_isSome_mapSet]
      exact Or.inl h
    · simp only [if_neg hc]
      exact ih m n h

theorem alookup_isSome_foldl_merge (svc : List String → List TypeRow) (n : String) :
    ∀ (parts : List (List String)) (m : List (String × Nat)),
      (alookup m n).isSome →
        (alookup (parts.foldl (fun m2 batch => mergeRows m2 (svc batch)) m) n).isSome := by
  intro parts
  induction parts with
  | nil => intro m h; exact h
  | cons batch rest ih =>
    intro m h
    rw [List.foldl_cons]
    exact ih (mergeRows m (svc batch)) (alookup_isSome_mergeRows (svc batch) m n h)

/-- C10: the name resolver returns the entire persisted index — every
name already present stays present in the returned mapping even when it
was not requested — and when every requested name is already present
(with a truthy id) it returns the persisted index unchanged and issues
zero lookup requests. -/
theorem C10_resolver_returns_whole_index :
    (∀ (map0 : List (String × Nat)) (typeNames : List String)
      (svc : List String → List TypeRow) (n : String),
      (alookup map0 n).isSome →
        (alookup (resolveTypeIDsByName map0 typeNames svc).1 n).isSome) ∧
    (∀ (map0 : List (String × Nat)) (typeNames : List String)
      (svc : List String → List TypeRow),
      (∀ n ∈ typeNames, truthyLookup map0 n = true) →
        resolveTypeIDsByName map0 typeNames svc = (map0, 0)) := by
  constructor
  · intro map0 typeNames svc n h
    unfold resolveTypeIDsByName
    by_cases hmiss : (typeNames.filter (fun n2 => ! truthyLookup map0 n2)).isEmpty
    · simp only [if_pos hmiss]
      exact h
    · simp only [if_neg hmiss]
      exact alookup_isSome_foldl_merge svc n _ map0 h
  · intro map0 typeNames svc h
    have hm : typeNames.filter (fun n2 => ! truthyLookup map0 n2) = [] := by
      rw [List.filter_eq_nil_iff]
      intro a ha
      simp [h a ha]
    unfold resolveTypeIDsByName
    rw [hm]
    rfl

/-- Witness for C10: an index holding "A" and "B"; requesting
["A", "C"] goes through the lookup path yet keeps "B", and requesting
only ["A"] returns the index unchanged with zero requests. -/
theorem C10_resolver_returns_whole_index_witness :
    (alookup [("A", 7), ("B", 9)] "B").isSome ∧
    (alookup (resolveTypeIDsByName [("A", 7), ("B", 9)] ["A", "C"]
        (fun _ => [⟨"C", 3⟩])).1 "B").isSome ∧
    (∀ n ∈ ["A", "B"], truthyLookup [("A", 7), ("B", 9)] n = true) ∧
    resolveTypeIDsByName [("A", 7), ("B", 9)] ["A", "B"]
      (fun _ => [⟨"C", 3⟩]) = ([("A", 7), ("B", 9)], 0) :=
  ⟨by decide,
   C10_resolver_returns_whole_index.1 [("A", 7), ("B", 9)] ["A", "C"]
     (fun _ => [⟨"C", 3⟩]) "B" (by decide),
   by decide,
   C10_resolver_returns_whole_index.2 [("A", 7), ("B", 9)] ["A", "B"]
     (fun _ => [⟨"C", 3⟩]) (by decide)⟩

end Boost

